import Mathlib

/-!
Verification of the sampling and state-aggregation core of `netdog.py`
(network diagnostics agent): the data collector, the rule-based status
classifier, the 24-hour history buffer, the trend summariser, the config
store and the monitoring loop.  Python dictionaries carrying optional keys
are embedded as Lean structures whose fields of type `Option _` record key
presence; `float` timestamps and latencies are idealised as rationals.
-/

namespace NetDog

/-- One collected sample, embedding the `data` dictionary assembled by
`collect_network_data`.  A field of type `Option α` models a key that may be
absent from the dictionary; `ping` and `signal` are doubly optional because
the key may be present with the Python value `None` (probe returned no
measurement). -/
structure Data where
  error : Option String := none
  timestamp : ℚ
  connection_type : Option String := none
  network_name : Option String := none
  local_ip : Option String := none
  public_ip : Option (Option String) := none
  ping : Option (Option ℚ) := none
  signal : Option (Option ℤ) := none
deriving DecidableEq

/-- `data.get('ping')`: absent key and key mapped to `None` both read as
`None`. -/
def Data.getPing (d : Data) : Option ℚ := d.ping.join

/-- `data.get('signal')`. -/
def Data.getSignal (d : Data) : Option ℤ := d.signal.join

/-- `calculate_overall_status` (netdog.py lines 696-725): error samples are
`poor`; otherwise present metrics are counted and compared against the
number of those in poor condition (`ping > 100`, `signal < -70`). -/
def calculate_overall_status (d : Data) : String :=
  if d.error.isSome then "poor"
  else
    let ping := d.getPing
    let signal := d.getSignal
    let pingCounts : ℕ × ℕ :=
      match ping with
      | none => (0, 0)
      | some p => (1, if p > 100 then 1 else 0)
    let signalCounts : ℕ × ℕ :=
      match signal with
      | none => (0, 0)
      | some s => (1, if s < -70 then 1 else 0)
    let total_conditions := pingCounts.1 + signalCounts.1
    let poor_conditions := pingCounts.2 + signalCounts.2
    if total_conditions = 0 then "fair"
    else if poor_conditions = 0 then "good"
    else if poor_conditions < total_conditions then "fair"
    else "poor"

/-- The classification policy exactly as the specification words it
(for comparison with `calculate_overall_status`): `poor` on error, else
`fair` when no metric is present, `good` when no present metric is poor,
`poor` when every present metric is poor, `fair` otherwise. -/
def specClassify (d : Data) : String :=
  if d.error.isSome then "poor"
  else
    let total := (if d.getPing.isSome then 1 else 0) +
      (if d.getSignal.isSome then 1 else 0)
    let poor_count :=
      (match d.getPing with | some p => if p > 100 then 1 else 0 | none => 0) +
      (match d.getSignal with | some s => if s < -70 then 1 else 0 | none => 0)
    if total = 0 then "fair"
    else if poor_count = 0 then "good"
    else if poor_count = total then "poor"
    else "fair"

/-- `get_ping_latency` (netdog.py lines 507-558): each target contributes
`some t` when its ping succeeded with measured time `t` and `none` when it
errored or timed out.  The loop accumulates the running total and the count
of successes. -/
def pingLoop : List (Option ℚ) → ℚ → ℕ → ℚ × ℕ
  | [], total, succ => (total, succ)
  | none :: rest, total, succ => pingLoop rest total succ
  | some t :: rest, total, succ => pingLoop rest (total + t) (succ + 1)

/-- Python's `round(x, 1)` idealised on rationals: banker's rounding of
`10 * x` to an integer, divided by 10. -/
def pyRound1 (x : ℚ) : ℚ :=
  let y := 10 * x
  let n : ℤ := ⌊y⌋
  let f : ℚ := y - n
  let r : ℤ :=
    if f < 1/2 then n
    else if f > 1/2 then n + 1
    else if n % 2 = 0 then n else n + 1
  (r : ℚ) / 10

/-- `get_ping_latency`: mean of the successful measurements rounded to one
decimal, `none` when no target succeeded. -/
def get_ping_latency (results : List (Option ℚ)) : Option ℚ :=
  let acc := pingLoop results 0 0
  if acc.2 > 0 then some (pyRound1 (acc.1 / (acc.2 : ℚ))) else none

/-- The specification's description of the aggregation: arithmetic mean over
exactly the successful targets, rounded to one decimal place, absent when
none succeeded. -/
def specPingMean (results : List (Option ℚ)) : Option ℚ :=
  let succ := results.filterMap id
  if succ.length = 0 then none
  else some (pyRound1 (succ.sum / (succ.length : ℚ)))

/-- Result of `get_network_info` (netdog.py lines 443-488): the function
catches its own failures internally and always returns a dictionary with
these three keys. -/
structure NetInfo where
  connection_type : String
  network_name : String
  local_ip : String
deriving DecidableEq

/-- One round of probe-helper behaviour as observed by
`collect_network_data`: each helper either returns its value or raises
(`Except.error` with the exception message). -/
structure ProbeBehavior where
  netInfo : Except String NetInfo
  pingProbe : Except String (Option ℚ)
  signalProbe : Except String (Option ℤ)
  publicIpProbe : Except String (Option String)

/-- The sample built by the `except` branch of `collect_network_data`:
`{'error': str(e), 'timestamp': datetime.now()}`. -/
def errorData (msg : String) (now : ℚ) : Data :=
  { error := some msg, timestamp := now }

/-- The `try` body of `collect_network_data` (netdog.py lines 415-441) in
the exception monad: steps run in source order and the first helper that
raises aborts the body.  `doIp` is the public-IP rate-limit decision. -/
def collectBody (b : ProbeBehavior) (doIp : Bool) (now : ℚ) :
    Except String Data := do
  let info ← b.netInfo
  let ping ← b.pingProbe
  let signal ← b.signalProbe
  let pubIp ← if doIp then Except.map some b.publicIpProbe else pure none
  pure { error := none, timestamp := now,
         connection_type := some info.connection_type,
         network_name := some info.network_name,
         local_ip := some info.local_ip,
         public_ip := pubIp, ping := some ping, signal := some signal }

/-- `collect_network_data`: the body with its `except Exception` handler,
which replaces the partial dictionary with the error sample.  Totality of
this function (it returns `Data`, not `Except`) embeds the guarantee that
no exception escapes. -/
def collect_network_data (b : ProbeBehavior) (doIp : Bool) (now : ℚ) : Data :=
  match collectBody b doIp now with
  | .ok d => d
  | .error e => errorData e now

/-- A sample carrying exactly the keys `error` and `timestamp` and no other
field. -/
def hasOnlyErrorAndTimestamp (d : Data) : Prop :=
  d.error.isSome ∧ d.connection_type = none ∧ d.network_name = none ∧
    d.local_ip = none ∧ d.public_ip = none ∧ d.ping = none ∧ d.signal = none

/-- A probe behaviour whose interface probe raises. -/
def failBehavior : ProbeBehavior :=
  ⟨.error "boom", .ok none, .ok none, .ok none⟩

/-- The presentation variables mutated by `update_display` (tk `StringVar`s,
label colours, the status canvas fill). -/
structure Display where
  connection_type : String
  network_name : String
  local_ip : String
  public_ip : String
  ping_latency : String
  signal_strength : String
  ping_color : String
  minimal_ping_text : String
  minimal_ping_fg : String
  minimal_dot_fill : String
  signal_color : String
  status_label : String
  status_fill : String
deriving DecidableEq

/-- `tkinter` string coercion used by `self.public_ip.set(data['public_ip'])`
when the fetched value is `None`. -/
def pubIpText : Option String → String
  | some s => s
  | none => "None"

/-- `update_display` (netdog.py lines 608-694) as a transformer of the
presentation state: the error branch touches only the status label and the
status indicator and returns early; otherwise each present key updates its
variable, ping and signal get colour-coded, and the overall status is
rendered. -/
def update_display (disp : Display) (d : Data) : Display :=
  if d.error.isSome then
    { disp with status_label := "Error collecting data", status_fill := "red" }
  else
    let d1 := match d.connection_type with
      | some v => { disp with connection_type := v }
      | none => disp
    let d2 := match d.network_name with
      | some v => { d1 with network_name := v }
      | none => d1
    let d3 := match d.local_ip with
      | some v => { d2 with local_ip := v }
      | none => d2
    let d4 := match d.public_ip with
      | some v => { d3 with public_ip := pubIpText v }
      | none => d3
    let d5 := match d.getPing with
      | some pv =>
        let color := if pv > 100 then "red" else if pv > 50 then "orange" else "green"
        let dot := if pv > 100 then "red" else if pv > 50 then "yellow" else "lime"
        { d4 with
          ping_latency := toString pv ++ " ms", ping_color := color,
          minimal_ping_text := toString pv ++ "ms", minimal_ping_fg := "white",
          minimal_dot_fill := dot }
      | none =>
        { d4 with
          ping_latency := "Timeout", ping_color := "red",
          minimal_ping_text := "Timeout", minimal_ping_fg := "red",
          minimal_dot_fill := "red" }
    let d6 := match d.getSignal with
      | some sv =>
        let color := if sv < -70 then "red" else if sv < -50 then "orange" else "green"
        { d5 with signal_strength := toString sv ++ " dBm", signal_color := color }
      | none =>
        if d.connection_type = some "WiFi" then
          { d5 with signal_strength := "No signal data" }
        else
          { d5 with signal_strength := "Not WiFi" }
    let status := calculate_overall_status d
    let fill := if status = "good" then "green"
      else if status = "fair" then "orange"
      else if status = "poor" then "red"
      else "gray"
    { d6 with
      status_fill := fill,
      status_label := "Status: " ++ status.capitalize }

/-- A concrete presentation state (the startup values of the variables). -/
def dispInit : Display :=
  ⟨"Unknown", "Not connected", "--", "--", "-- ms", "-- dBm", "black",
    "-- ms", "white", "gray", "black", "Initializing...", "gray"⟩

/-- A JSON-ish value stored in the configuration dictionary. -/
inductive CVal
  | s (v : String)
  | n (v : ℚ)
  | b (v : Bool)
  | l (v : List String)
deriving DecidableEq

/-- The configuration dictionary, embedded as an association list in key
insertion order (Python dictionaries preserve insertion order). -/
abbrev ConfigDict := List (String × CVal)

/-- The in-code default configuration (netdog.py lines 77-85). -/
def defaultConfig : ConfigDict :=
  [("ping_targets", .l ["8.8.8.8", "1.1.1.1"]),
   ("refresh_interval", .n 5),
   ("ping_timeout", .n 3),
   ("theme", .s "light"),
   ("opacity", .n (9/10)),
   ("auto_start", .b false),
   ("view_mode", .s "compact")]

/-- `d[k]` as an optional read (`d.get(k)`). -/
def getKey (k : String) : ConfigDict → Option CVal
  | [] => none
  | (k0, v) :: rest => if k0 = k then some v else getKey k rest

/-- Keys of the dictionary, in order. -/
def keys (c : ConfigDict) : List String := c.map Prod.fst

/-- `d[k] = v`: replace the value of an existing key in place, or append a
new key at the end (Python dictionary assignment). -/
def setKey : ConfigDict → String → CVal → ConfigDict
  | [], k, v => [(k, v)]
  | (k0, v0) :: rest, k, v =>
    if k0 = k then (k0, v) :: rest else (k0, v0) :: setKey rest k v

/-- `base.update(overlay)`: assign every key of `overlay`, in order, into
`base`. -/
def dictUpdate (base overlay : ConfigDict) : ConfigDict :=
  overlay.foldl (fun acc kv => setKey acc kv.1 kv.2) base

/-- `load_config` (netdog.py lines 814-823): a missing or unreadable file
(the `none` case) leaves the defaults untouched; otherwise the persisted
object is merged into the defaults with `self.config.update(saved_config)`. -/
def load_config (file : Option ConfigDict) : ConfigDict :=
  match file with
  | none => defaultConfig
  | some saved => dictUpdate defaultConfig saved

/-- The in-memory merge performed by `apply_config` (netdog.py lines
806-812): `self.config.update(new_config)`; the merged dictionary is then
persisted wholesale by `save_config`. -/
def apply_config (current new : ConfigDict) : ConfigDict :=
  dictUpdate current new

/-- The public-IP rate-limit guard of `collect_network_data` (netdog.py
lines 430-432), iterated over a sequence of collect calls given by their
wall-clock times: the probe is issued when `_last_ip_check` is unset or
`time.time() - self._last_ip_check > 300`, and `_last_ip_check` is then set
to the current time whether or not the fetch succeeds.  Returns the
issued/skipped decision of each call. -/
def codeIssues : Option ℚ → List ℚ → List Bool
  | _, [] => []
  | none, now :: rest => true :: codeIssues (some now) rest
  | some t, now :: rest =>
    if now - t > 300 then true :: codeIssues (some now) rest
    else false :: codeIssues (some t) rest

/-- The `_last_ip_check` attribute after the same sequence of calls. -/
def codeState : Option ℚ → List ℚ → Option ℚ
  | last, [] => last
  | none, now :: rest => codeState (some now) rest
  | some t, now :: rest =>
    if now - t > 300 then codeState (some now) rest
    else codeState (some t) rest

/-- The decision sequence the claim describes: issue the probe iff at least
300 seconds have elapsed since the last *successful* fetch (or none has
happened yet).  Each call carries its time and the value the fetch would
return if issued (`none` = fetch fails). -/
def claimIssues : Option ℚ → List (ℚ × Option String) → List Bool
  | _, [] => []
  | lastSucc, (now, r) :: rest =>
    let issue : Bool :=
      match lastSucc with
      | none => true
      | some t => decide (now - t ≥ 300)
    let next : Option ℚ :=
      if issue then
        match r with
        | some _ => some now
        | none => lastSucc
      else lastSucc
    issue :: claimIssues next rest

/-- The time of the most recent call on which the code issued the probe,
read off the observable decision sequence. -/
def lastIssuedTime (start : Option ℚ) (past : List ℚ) : Option ℚ :=
  (past.zip (codeIssues start past)).foldl
    (fun acc tb => if tb.2 then some tb.1 else acc) start

/-- Program counter of one pass through `monitoring_loop` (netdog.py lines
401-413): check the `is_monitoring` flag at the top, collect, publish to
the queue, sleep for the refresh interval; an exception in the iteration
diverts to the fixed 5-second backoff before the next top-of-loop check. -/
inductive LoopPC
  | check
  | collect
  | publish
  | sleeping
  | backoff
  | exited
deriving DecidableEq

/-- One small step of the monitoring loop.  The inputs are the current
value of the `is_monitoring` flag and whether this iteration's body raises;
the returned Bool records whether this step published a sample. -/
def loopStep : LoopPC → Bool → Bool → LoopPC × Bool
  | .check, running, _ => if running then (.collect, false) else (.exited, false)
  | .collect, _, fails => if fails then (.backoff, false) else (.publish, false)
  | .publish, _, _ => (.sleeping, true)
  | .sleeping, _, _ => (.check, false)
  | .backoff, _, _ => (.check, false)
  | .exited, _, _ => (.exited, false)

/-- Run the loop over a list of per-step inputs; returns the publish trace
and the final program counter. -/
def loopRun : LoopPC → List (Bool × Bool) → List Bool × LoopPC
  | pc, [] => ([], pc)
  | pc, (running, fails) :: rest =>
    let st := loopStep pc running fails
    let r := loopRun st.1 rest
    (st.2 :: r.1, r.2)

/-- Upper bound on how many samples can still be published once the
running flag stays false: one for an iteration already past the flag
check, none otherwise. -/
def inFlight : LoopPC → ℕ
  | .collect => 1
  | .publish => 1
  | _ => 0

/-- Steps until the loop is exited once the flag stays false. -/
def exitFuel : LoopPC → ℕ
  | .check => 1
  | .collect => 4
  | .publish => 3
  | .sleeping => 2
  | .backoff => 2
  | .exited => 0

/-- Outcome of `update_trend_graph` (netdog.py lines 744-790) on the data
path: the "Collecting data..." placeholder text, a silent return that
draws nothing, or a trend drawn against the normalisation range
`[mn, mx]`. -/
inductive TrendResult
  | collecting
  | silent
  | trend (mn mx : ℚ)
deriving DecidableEq

/-- `update_trend_graph` on the ping history: fewer than 2 raw points
draws the placeholder; otherwise entries with absent ping are filtered
out, fewer than 2 remaining points returns silently, and otherwise the
min/max of the remaining values form the scale, with `max` widened by 1
when it equals `min`. -/
def update_trend_graph (pings : List (Option ℚ)) : TrendResult :=
  if pings.length < 2 then .collecting
  else
    match pings.filterMap id with
    | v0 :: v1 :: vs =>
      let mx := ((v1 :: vs).foldl max v0)
      let mn := ((v1 :: vs).foldl min v0)
      let mx2 := if mx = mn then mx + 1 else mx
      .trend mn mx2
    | _ => .silent

/-- The three parallel history lists of `self.history` (netdog.py lines
88-92). -/
structure History where
  timestamps : List ℚ
  ping_values : List (Option ℚ)
  signal_values : List (Option ℤ)
deriving DecidableEq

/-- The initial, empty history. -/
def emptyHistory : History := ⟨[], [], []⟩

/-- The eviction loop of `update_history` (netdog.py lines 736-742):
`while timestamps and timestamps[0] < cutoff: pop(0) from all three`. -/
def trimLoop (cutoff : ℚ) : List ℚ → List (Option ℚ) → List (Option ℤ) →
    List ℚ × List (Option ℚ) × List (Option ℤ)
  | [], ps, ss => ([], ps, ss)
  | t :: ts, ps, ss =>
    if t < cutoff then trimLoop cutoff ts ps.tail ss.tail
    else (t :: ts, ps, ss)

/-- `update_history` (netdog.py lines 727-742): append the sample's
timestamp, ping and signal to the three lists, then evict from the front
while the oldest timestamp is older than `now - 24h` (86400 seconds). -/
def update_history (h : History) (ts : ℚ) (p : Option ℚ) (s : Option ℤ)
    (now : ℚ) : History :=
  let r := trimLoop (now - 86400)
    (h.timestamps ++ [ts]) (h.ping_values ++ [p]) (h.signal_values ++ [s])
  ⟨r.1, r.2.1, r.2.2⟩

/-- One history append event: the sample's timestamp, its optional ping and
signal values, and the wall-clock time at which the append runs. -/
structure AppendEv where
  ts : ℚ
  ping : Option ℚ
  signal : Option ℤ
  now : ℚ
deriving DecidableEq

/-- A sequence of `update_history` calls. -/
def runHistory (h : History) (evs : List AppendEv) : History :=
  evs.foldl (fun acc e => update_history acc e.ts e.ping e.signal e.now) h

/-- The history invariant: the three parallel lists have equal length, the
timestamps are in non-decreasing order, and every timestamp is at most
`ub`. -/
def HistInv (h : History) (ub : ℚ) : Prop :=
  h.ping_values.length = h.timestamps.length ∧
    h.signal_values.length = h.timestamps.length ∧
    h.timestamps.Pairwise (· ≤ ·) ∧
    ∀ t ∈ h.timestamps, t ≤ ub

/-- The timestamp of the last event of the sequence (`ub` if empty). -/
def lastTs (ub : ℚ) : List AppendEv → ℚ
  | [] => ub
  | e :: es => lastTs e.ts es

theorem pingLoop_eq (results : List (Option ℚ)) :
    ∀ total succ, pingLoop results total succ =
      (total + (results.filterMap id).sum, succ + (results.filterMap id).length) := by
  induction results with
  | nil => intro total succ; simp [pingLoop]
  | cons head rest ih =>
    intro total succ
    cases head with
    | none => simp [pingLoop, ih]
    | some t =>
      have hfm : List.filterMap id (some t :: rest) = t :: List.filterMap id rest := by
        simp
      simp only [pingLoop, ih, hfm, List.sum_cons, List.length_cons, Prod.mk.injEq]
      refine ⟨by ring, by omega⟩

/-- **C1.** The status classifier agrees everywhere with the
specification's policy (error first, then the present/poor counts with the
stated thresholds), and it always returns one of `good`, `fair`, `poor`. -/
theorem calculate_overall_status_correct (d : Data) :
    calculate_overall_status d = specClassify d ∧
      (calculate_overall_status d = "good" ∨ calculate_overall_status d = "fair" ∨
        calculate_overall_status d = "poor") := by
  unfold calculate_overall_status specClassify
  rcases hE : d.error with _ | e
  · rcases hP : d.getPing with _ | p
    · rcases hS : d.getSignal with _ | s
      · simp [hE, hP, hS]
      · by_cases hs : s < -70 <;> simp [hE, hP, hS, hs]
    · rcases hS : d.getSignal with _ | s
      · by_cases hp : p > 100 <;> simp [hE, hP, hS, hp]
      · by_cases hp : p > 100 <;> by_cases hs : s < -70 <;>
          simp [hE, hP, hS, hp, hs]
  · simp [hE]

/-- **C3.** `get_ping_latency` returns, for every non-empty target list, the
arithmetic mean of exactly the successful measurements rounded to one
decimal place, and `none` when no target succeeded; in particular with
measurements 20 and 30 succeeding and a third target timing out it returns
25.0. -/
theorem get_ping_latency_correct :
    (∀ results : List (Option ℚ), results ≠ [] →
      get_ping_latency results = specPingMean results) ∧
      get_ping_latency [some 20, some 30, none] = some 25 := by
  constructor
  · intro results _
    unfold get_ping_latency specPingMean
    rw [pingLoop_eq]
    simp only [zero_add]
    rcases h : (results.filterMap id).length with _ | n
    · simp [h]
    · simp [h]
  · unfold get_ping_latency
    simp only [pingLoop]
    norm_num [pyRound1]

/-- Witness for **C3** at the concrete list `[some 20, some 30, none]`. -/
theorem get_ping_latency_correct_witness :
    get_ping_latency [some 20, some 30, none] =
      specPingMean [some 20, some 30, none] :=
  get_ping_latency_correct.1 [some 20, some 30, none] (by decide)

/-- **C2.** `collect_network_data` is a total function into samples — no
exception of the probe helpers escapes it — and whenever any helper raises
(the body aborts with an error) the returned sample is exactly the
error-and-timestamp dictionary, with every other field absent; when the
body completes, its sample is returned unchanged. -/
theorem collect_network_data_total (b : ProbeBehavior) (doIp : Bool) (now : ℚ) :
    (∀ e, collectBody b doIp now = .error e →
      collect_network_data b doIp now = errorData e now ∧
        hasOnlyErrorAndTimestamp (collect_network_data b doIp now)) ∧
    (∀ d, collectBody b doIp now = .ok d →
      collect_network_data b doIp now = d) := by
  refine ⟨fun e he => ?_, fun d hd => ?_⟩
  · unfold collect_network_data
    rw [he]
    exact ⟨rfl, by simp [errorData, hasOnlyErrorAndTimestamp]⟩
  · unfold collect_network_data
    rw [hd]

/-- Witness for **C2**: a behaviour whose interface probe raises yields the
bare error sample. -/
theorem collect_network_data_total_witness :
    collect_network_data failBehavior false 0 = errorData "boom" 0 ∧
      hasOnlyErrorAndTimestamp (collect_network_data failBehavior false 0) :=
  (collect_network_data_total failBehavior false 0).1 "boom" rfl

/-- **C10.** On a sample carrying the `error` key, `update_display` leaves
every metric presentation variable (connection type, network name, local
IP, public IP, ping text, signal text, and all colour codings) unchanged
and only sets the status label and the status indicator to the error
state. -/
theorem update_display_error_frame (disp : Display) (d : Data)
    (h : d.error.isSome) :
    update_display disp d =
      { disp with
        status_label := "Error collecting data",
        status_fill := "red" } := by
  unfold update_display
  rw [if_pos h]

/-- Witness for **C10** at the startup display and a concrete error
sample. -/
theorem update_display_error_frame_witness :
    update_display dispInit (errorData "boom" 0) =
      { dispInit with
        status_label := "Error collecting data",
        status_fill := "red" } :=
  update_display_error_frame dispInit (errorData "boom" 0) rfl

theorem getKey_setKey (l : ConfigDict) (k k0 : String) (v : CVal) :
    getKey k (setKey l k0 v) = if k0 = k then some v else getKey k l := by
  induction l with
  | nil => simp [setKey, getKey]
  | cons hd rest ih =>
    obtain ⟨k1, v1⟩ := hd
    simp only [setKey]
    by_cases h10 : k1 = k0
    · subst h10
      by_cases h1k : k1 = k <;> simp [getKey, h1k]
    · simp only [if_neg h10, getKey, ih]
      by_cases h1k : k1 = k <;> by_cases h0k : k0 = k <;> simp_all

theorem getKey_eq_none_of_not_mem (l : ConfigDict) (k : String)
    (h : k ∉ keys l) : getKey k l = none := by
  induction l with
  | nil => rfl
  | cons hd rest ih =>
    obtain ⟨k1, v1⟩ := hd
    simp only [keys, List.map_cons, List.mem_cons, not_or] at h
    have h1 : ¬ k1 = k := fun he => h.1 he.symm
    rw [getKey, if_neg h1]
    exact ih h.2

theorem getKey_dictUpdate (overlay : ConfigDict) :
    ∀ (base : ConfigDict) (k : String), (keys overlay).Nodup →
      getKey k (dictUpdate base overlay) =
        (getKey k overlay).or (getKey k base) := by
  induction overlay with
  | nil => intro base k _; simp [dictUpdate, getKey]
  | cons hd rest ih =>
    intro base k hnd
    obtain ⟨k0, v0⟩ := hd
    have hstep : dictUpdate base ((k0, v0) :: rest) =
        dictUpdate (setKey base k0 v0) rest := rfl
    simp only [keys, List.map_cons, List.nodup_cons] at hnd
    rw [hstep, ih (setKey base k0 v0) k hnd.2, getKey_setKey]
    by_cases h0k : k0 = k
    · subst h0k
      have : getKey k0 rest = none :=
        getKey_eq_none_of_not_mem rest k0 hnd.1
      simp [getKey, this]
    · simp [getKey, fun he : k0 = k => h0k he, h0k]

theorem keys_setKey (l : ConfigDict) (k : String) (v : CVal) :
    keys (setKey l k v) = if k ∈ keys l then keys l else keys l ++ [k] := by
  induction l with
  | nil => simp [setKey, keys]
  | cons hd rest ih =>
    obtain ⟨k1, v1⟩ := hd
    simp only [setKey]
    by_cases h1k : k1 = k
    · subst h1k
      simp [keys]
    · simp only [if_neg h1k]
      by_cases hm : k ∈ keys rest
      · have hin : k ∈ keys ((k1, v1) :: rest) := by
          simp only [keys, List.map_cons, List.mem_cons]
          exact Or.inr hm
        rw [if_pos hin]
        simp only [keys, List.map_cons] at ih ⊢
        simp only [keys] at hm
        rw [ih, if_pos hm]
      · have hnotin : k ∉ keys ((k1, v1) :: rest) := by
          simp only [keys, List.map_cons, List.mem_cons, not_or]
          exact ⟨fun he => h1k he.symm, hm⟩
        rw [if_neg hnotin]
        simp only [keys, List.map_cons] at ih ⊢
        simp only [keys] at hm
        rw [ih, if_neg hm]
        simp

theorem nodup_setKey (l : ConfigDict) (k : String) (v : CVal)
    (h : (keys l).Nodup) : (keys (setKey l k v)).Nodup := by
  rw [keys_setKey]
  by_cases hm : k ∈ keys l
  · simpa [hm] using h
  · simp only [if_neg hm]
    simpa [List.nodup_append] using ⟨h, hm⟩

theorem nodup_dictUpdate (overlay : ConfigDict) :
    ∀ base : ConfigDict, (keys base).Nodup →
      (keys (dictUpdate base overlay)).Nodup := by
  induction overlay with
  | nil => intro base h; exact h
  | cons hd rest ih =>
    intro base h
    exact ih (setKey base hd.1 hd.2) (nodup_setKey base hd.1 hd.2 h)

/-- **C6 counterexample.** A persisted field unknown to the Config schema
(here `foo`) is not ignored on load: `dict.update` inserts it into the
merged configuration, although it is absent from the defaults. -/
theorem load_config_unknown_counterexample :
    getKey "foo" (load_config (some [("foo", CVal.n 1)])) = some (CVal.n 1) ∧
      getKey "foo" defaultConfig = none :=
  ⟨rfl, rfl⟩

/-- **C6 (amended).** `load_config` merges the persisted object onto the
defaults field-by-field — a persisted field overrides its default, a field
missing from the persisted object keeps its default — and a missing or
unreadable file yields exactly the defaults; however, persisted fields
unknown to the schema are inserted into the configuration rather than
ignored.  The merge is expressed by the lookup equation below. -/
theorem load_config_merges (saved : ConfigDict) (k : String)
    (hnd : (keys saved).Nodup) :
    load_config none = defaultConfig ∧
      getKey k (load_config (some saved)) =
        (getKey k saved).or (getKey k defaultConfig) :=
  ⟨rfl, getKey_dictUpdate saved defaultConfig k hnd⟩

/-- Witness for **C6 (amended)** at a one-field persisted object. -/
theorem load_config_merges_witness :
    load_config none = defaultConfig ∧
      getKey "theme" (load_config (some [("theme", CVal.s "dark")])) =
        (getKey "theme" [("theme", CVal.s "dark")]).or
          (getKey "theme" defaultConfig) :=
  load_config_merges [("theme", CVal.s "dark")] "theme" (by decide)

/-- **C7.** Round-trip: applying a configuration and then performing the
`load`-equivalent read (merging the persisted dictionary onto the defaults)
yields exactly the field values `apply` produced in memory, for every
current configuration that covers the default fields. -/
theorem apply_load_roundtrip (current new : ConfigDict) (k : String)
    (hc : (keys current).Nodup) (hn : (keys new).Nodup)
    (hdef : ∀ k0, (getKey k0 defaultConfig).isSome →
      (getKey k0 current).isSome) :
    getKey k (load_config (some (apply_config current new))) =
      getKey k (apply_config current new) := by
  have hnd : (keys (apply_config current new)).Nodup :=
    nodup_dictUpdate new current hc
  have hload : getKey k (load_config (some (apply_config current new))) =
      (getKey k (apply_config current new)).or (getKey k defaultConfig) :=
    getKey_dictUpdate (apply_config current new) defaultConfig k hnd
  rw [hload]
  cases hap : getKey k (apply_config current new) with
  | some v => simp
  | none =>
    have happ : (getKey k new).or (getKey k current) = none := by
      rw [← getKey_dictUpdate new current k hn]
      exact hap
    have hcur : getKey k current = none := by
      cases hcn : getKey k new with
      | none => simpa [hcn] using happ
      | some v => simp [hcn] at happ
    have hdefn : getKey k defaultConfig = none := by
      cases hd : getKey k defaultConfig with
      | none => rfl
      | some v =>
        have := hdef k (by simp [hd])
        rw [hcur] at this
        simp at this
    simp [hdefn]

/-- Witness for **C7**: apply a one-field change on top of the defaults and
read it back. -/
theorem apply_load_roundtrip_witness :
    getKey "theme"
        (load_config (some (apply_config defaultConfig
          [("theme", CVal.s "dark")]))) =
      getKey "theme" (apply_config defaultConfig [("theme", CVal.s "dark")]) :=
  apply_load_roundtrip defaultConfig [("theme", CVal.s "dark")] "theme"
    (by decide) (by decide) (fun _ h => h)

theorem codeState_eq_lastIssuedTime (past : List ℚ) :
    ∀ start : Option ℚ, codeState start past = lastIssuedTime start past := by
  induction past with
  | nil => intro start; cases start <;> rfl
  | cons now rest ih =>
    intro start
    cases start with
    | none =>
      simp only [codeState, codeIssues, lastIssuedTime, List.zip_cons_cons,
        List.foldl_cons, if_true]
      exact ih (some now)
    | some t =>
      by_cases h : now - t > 300
      · simp only [codeState, codeIssues, if_pos h, lastIssuedTime,
          List.zip_cons_cons, List.foldl_cons, if_true]
        exact ih (some now)
      · simp only [codeState, codeIssues, if_neg h, lastIssuedTime,
          List.zip_cons_cons, List.foldl_cons, if_false]
        exact ih (some t)

theorem codeIssues_append (xs : List ℚ) :
    ∀ (start : Option ℚ) (ys : List ℚ),
      codeIssues start (xs ++ ys) =
        codeIssues start xs ++ codeIssues (codeState start xs) ys := by
  induction xs with
  | nil => intro start ys; cases start <;> rfl
  | cons now rest ih =>
    intro start ys
    cases start with
    | none =>
      simp only [List.cons_append, codeIssues, codeState, List.append_eq, ih]
    | some t =>
      by_cases h : now - t > 300
      · simp only [List.cons_append, codeIssues, codeState, if_pos h,
          List.append_eq, ih]
      · simp only [List.cons_append, codeIssues, codeState, if_neg h,
          List.append_eq, ih]

/-- **C5 counterexample.** When the first public-IP attempt fails (fetch
returns `None`), the code still records the attempt time, so a collect
call 200 seconds later does not re-query — although no successful fetch
has ever happened, so the claim (and the spec's "since the last successful
fetch") demands a re-query. -/
theorem public_ip_requery_counterexample :
    codeIssues none [0, 200] = [true, false] ∧
      claimIssues none [(0, none), (200, some "203.0.113.7")] = [true, true] ∧
      codeIssues none [0, 200] ≠
        claimIssues none [(0, none), (200, some "203.0.113.7")] := by
  have hcode : codeIssues none [0, 200] = [true, false] := by
    norm_num [codeIssues]
  have hclaim : claimIssues none [(0, none), (200, some "203.0.113.7")] =
      [true, true] := rfl
  refine ⟨hcode, hclaim, ?_⟩
  rw [hcode, hclaim]
  simp

/-- **C5 (amended).** Across every sequence of collect calls, the code
issues the public-IP probe on a call exactly when no probe attempt has
been issued before, or strictly more than 300 seconds of wall-clock time
have elapsed since the last issued attempt — successful or not; within
that window the previously fetched value is kept without re-querying.
The decision at each new call time is determined by the observable time of
the last issued attempt. -/
theorem public_ip_rate_limit_amended (past : List ℚ) (now : ℚ) :
    codeIssues none (past ++ [now]) =
      codeIssues none past ++
        [match lastIssuedTime none past with
         | none => true
         | some t => decide (now - t > 300)] := by
  rw [codeIssues_append, codeState_eq_lastIssuedTime]
  cases h : lastIssuedTime none past with
  | none => rfl
  | some t =>
    by_cases h2 : now - t > 300 <;> simp [codeIssues, h2]

theorem loopRun_count_le (ins : List (Bool × Bool)) :
    ∀ pc : LoopPC, (∀ i ∈ ins, i.1 = false) →
      (loopRun pc ins).1.count true ≤ inFlight pc := by
  induction ins with
  | nil => intro pc _; simp [loopRun]
  | cons i rest ih =>
    intro pc h
    obtain ⟨running, fails⟩ := i
    have hr : running = false := h (running, fails) (by simp)
    subst hr
    have hrest : ∀ j ∈ rest, j.1 = false := fun j hj => h j (by simp [hj])
    cases pc with
    | check =>
      have hb := ih .exited hrest
      simp [loopRun, loopStep, List.count_cons, inFlight] at hb ⊢
      omega
    | collect =>
      cases fails with
      | false =>
        have hb := ih .publish hrest
        simp [loopRun, loopStep, List.count_cons, inFlight] at hb ⊢
        omega
      | true =>
        have hb := ih .backoff hrest
        simp [loopRun, loopStep, List.count_cons, inFlight] at hb ⊢
        omega
    | publish =>
      have hb := ih .sleeping hrest
      simp [loopRun, loopStep, List.count_cons, inFlight] at hb ⊢
      omega
    | sleeping =>
      have hb := ih .check hrest
      simp [loopRun, loopStep, List.count_cons, inFlight] at hb ⊢
      omega
    | backoff =>
      have hb := ih .check hrest
      simp [loopRun, loopStep, List.count_cons, inFlight] at hb ⊢
      omega
    | exited =>
      have hb := ih .exited hrest
      simp [loopRun, loopStep, List.count_cons, inFlight] at hb ⊢
      omega

theorem loopRun_exits (ins : List (Bool × Bool)) :
    ∀ pc : LoopPC, (∀ i ∈ ins, i.1 = false) → exitFuel pc ≤ ins.length →
      (loopRun pc ins).2 = .exited := by
  induction ins with
  | nil =>
    intro pc _ hf
    cases pc <;> simp only [exitFuel, List.length_nil] at hf <;>
      first
      | rfl
      | omega
  | cons i rest ih =>
    intro pc h hf
    obtain ⟨running, fails⟩ := i
    have hr : running = false := h (running, fails) (by simp)
    subst hr
    have hrest : ∀ j ∈ rest, j.1 = false := fun j hj => h j (by simp [hj])
    simp only [List.length_cons] at hf
    cases pc with
    | check =>
      simp only [loopRun, loopStep, Bool.false_eq_true, if_false]
      exact ih .exited hrest (by simp [exitFuel])
    | collect =>
      cases fails with
      | false =>
        simp only [loopRun, loopStep, Bool.false_eq_true, if_false]
        refine ih .publish hrest ?_
        simp only [exitFuel] at hf ⊢
        omega
      | true =>
        simp only [loopRun, loopStep, if_true]
        refine ih .backoff hrest ?_
        simp only [exitFuel] at hf ⊢
        omega
    | publish =>
      simp only [loopRun, loopStep]
      refine ih .sleeping hrest ?_
      simp only [exitFuel] at hf ⊢
      omega
    | sleeping =>
      simp only [loopRun, loopStep]
      refine ih .check hrest ?_
      simp only [exitFuel] at hf ⊢
      omega
    | backoff =>
      simp only [loopRun, loopStep]
      refine ih .check hrest ?_
      simp only [exitFuel] at hf ⊢
      omega
    | exited =>
      simp only [loopRun, loopStep]
      exact ih .exited hrest (by simp [exitFuel])

/-- **C8.** Once the running flag is cleared and stays cleared, the
monitoring loop publishes at most the one sample already in flight; from
any point outside the iteration body — in particular from the 5-second
backoff after a failed iteration, and from the top-of-loop check or the
interval sleep — it publishes nothing at all; and within four further
steps the loop has observed the flag at the top of an iteration and
exited. -/
theorem stop_halts_publishing (pc : LoopPC) (ins : List (Bool × Bool))
    (hstop : ∀ i ∈ ins, i.1 = false) :
    (loopRun pc ins).1.count true ≤ 1 ∧
      (pc = .check ∨ pc = .sleeping ∨ pc = .backoff ∨ pc = .exited →
        (loopRun pc ins).1.count true = 0) ∧
      (4 ≤ ins.length → (loopRun pc ins).2 = .exited) := by
  refine ⟨?_, ?_, ?_⟩
  · have hb := loopRun_count_le ins pc hstop
    have h1 : inFlight pc ≤ 1 := by cases pc <;> simp [inFlight]
    omega
  · intro hpc
    have hb := loopRun_count_le ins pc hstop
    have h0 : inFlight pc = 0 := by
      rcases hpc with rfl | rfl | rfl | rfl <;> rfl
    omega
  · intro hlen
    refine loopRun_exits ins pc hstop ?_
    have h4 : exitFuel pc ≤ 4 := by cases pc <;> simp [exitFuel]
    omega

/-- Witness for **C8**: stop issued while the loop is in the backoff sleep;
four further steps publish nothing and end in the exited state. -/
theorem stop_halts_publishing_witness :
    (loopRun .backoff [(false, false), (false, false), (false, false),
      (false, false)]).1.count true = 0 ∧
      (loopRun .backoff [(false, false), (false, false), (false, false),
        (false, false)]).2 = .exited :=
  ⟨(stop_halts_publishing .backoff _ (by decide)).2.1
      (Or.inr (Or.inr (Or.inl rfl))),
    (stop_halts_publishing .backoff _ (by decide)).2.2 (by decide)⟩

theorem foldl_min_le_foldl_max (l : List ℚ) :
    ∀ a b : ℚ, a ≤ b → l.foldl min a ≤ l.foldl max b := by
  induction l with
  | nil => intro a b h; simpa using h
  | cons x xs ih =>
    intro a b h
    simp only [List.foldl_cons]
    exact ih _ _ (le_trans (min_le_left a x)
      (le_trans h (le_max_left b x)))

/-- **C9 counterexample.** With history `[some 50, none]` only one valid
ping point remains after filtering, yet the summary does not report
insufficient data (the "Collecting data..." placeholder): the raw length
is 2, so the code silently draws nothing instead.  The insufficient-data
report is gated on the raw length, before filtering. -/
theorem trend_insufficient_counterexample :
    update_trend_graph [some 50, none] = .silent ∧
      TrendResult.silent ≠ TrendResult.collecting := by
  refine ⟨rfl, by decide⟩

/-- **C9 (amended).** The trend summary reports the insufficient-data
placeholder exactly when fewer than 2 raw history points exist; with at
least 2 raw points but fewer than 2 valid ping values after filtering it
produces no trend and no message; whenever a trend is produced its
normalisation range has positive width (when min = max the maximum is
widened by 1), as on the history `[50, 50]`. -/
theorem update_trend_graph_amended :
    (∀ pings : List (Option ℚ), pings.length < 2 →
      update_trend_graph pings = .collecting) ∧
      (∀ pings : List (Option ℚ), 2 ≤ pings.length →
        (pings.filterMap id).length < 2 → update_trend_graph pings = .silent) ∧
      (∀ (pings : List (Option ℚ)) (mn mx : ℚ),
        update_trend_graph pings = .trend mn mx → mn < mx) ∧
      update_trend_graph [some 50, some 50] = .trend 50 51 := by
  refine ⟨?_, ?_, ?_, ?_⟩
  · intro pings h
    simp [update_trend_graph, h]
  · intro pings h2 hf
    unfold update_trend_graph
    rw [if_neg (by omega)]
    cases hfm : pings.filterMap id with
    | nil => rfl
    | cons v0 tl =>
      cases tl with
      | nil => rfl
      | cons v1 vs =>
        exfalso
        rw [hfm] at hf
        simp only [List.length_cons] at hf
        omega
  · intro pings mn mx h
    unfold update_trend_graph at h
    by_cases hlen : pings.length < 2
    · rw [if_pos hlen] at h
      exact absurd h (by simp)
    · rw [if_neg hlen] at h
      cases hfm : pings.filterMap id with
      | nil => rw [hfm] at h; exact absurd h (by simp)
      | cons v0 tl =>
        cases tl with
        | nil => rw [hfm] at h; exact absurd h (by simp)
        | cons v1 vs =>
          rw [hfm] at h
          simp only [TrendResult.trend.injEq] at h
          obtain ⟨hmn, hmx⟩ := h
          have hle : (v1 :: vs).foldl min v0 ≤ (v1 :: vs).foldl max v0 :=
            foldl_min_le_foldl_max (v1 :: vs) v0 v0 le_rfl
          by_cases he : (v1 :: vs).foldl max v0 = (v1 :: vs).foldl min v0
          · rw [if_pos he] at hmx
            subst hmn
            rw [← hmx, he]
            linarith
          · rw [if_neg he] at hmx
            subst hmn
            rw [← hmx]
            exact lt_of_le_of_ne hle (fun hc => he hc.symm)
  · show update_trend_graph [some 50, some 50] = .trend 50 51
    unfold update_trend_graph
    rw [if_neg (by norm_num)]
    rw [show List.filterMap id [some (50 : ℚ), some 50] = [50, 50] from by simp]
    simp only [List.foldl_cons, List.foldl_nil, max_self, min_self]
    norm_num

/-- Witness for **C9 (amended)**: two raw points, zero valid ping points,
no message and no trend. -/
theorem update_trend_graph_amended_witness :
    update_trend_graph [none, none] = .silent :=
  update_trend_graph_amended.2.1 [none, none] (by decide) (by decide)

theorem trimLoop_lengths (cutoff : ℚ) :
    ∀ (ts : List ℚ) (ps : List (Option ℚ)) (ss : List (Option ℤ)),
      ps.length = ts.length → ss.length = ts.length →
      (trimLoop cutoff ts ps ss).2.1.length =
          (trimLoop cutoff ts ps ss).1.length ∧
        (trimLoop cutoff ts ps ss).2.2.length =
          (trimLoop cutoff ts ps ss).1.length := by
  intro ts
  induction ts with
  | nil =>
    intro ps ss hp hs
    simp only [trimLoop]
    exact ⟨by simpa using hp, by simpa using hs⟩
  | cons t ts ih =>
    intro ps ss hp hs
    by_cases h : t < cutoff
    · simp only [trimLoop, if_pos h]
      refine ih ps.tail ss.tail ?_ ?_
      · simp only [List.length_tail, hp, List.length_cons]
        omega
      · simp only [List.length_tail, hs, List.length_cons]
        omega
    · simp only [trimLoop, if_neg h]
      exact ⟨hp, hs⟩

theorem trimLoop_sublist (cutoff : ℚ) :
    ∀ (ts : List ℚ) (ps : List (Option ℚ)) (ss : List (Option ℤ)),
      (trimLoop cutoff ts ps ss).1.Sublist ts := by
  intro ts
  induction ts with
  | nil => intro ps ss; simp [trimLoop]
  | cons t ts ih =>
    intro ps ss
    by_cases h : t < cutoff
    · simp only [trimLoop, if_pos h]
      exact (ih ps.tail ss.tail).cons t
    · simp only [trimLoop, if_neg h]
      exact List.Sublist.refl _

theorem trimLoop_lower (cutoff : ℚ) :
    ∀ (ts : List ℚ) (ps : List (Option ℚ)) (ss : List (Option ℤ)),
      ts.Pairwise (· ≤ ·) →
      ∀ x ∈ (trimLoop cutoff ts ps ss).1, cutoff ≤ x := by
  intro ts
  induction ts with
  | nil => intro ps ss _ x hx; simp [trimLoop] at hx
  | cons t ts ih =>
    intro ps ss hpw x hx
    obtain ⟨hts, htl⟩ := List.pairwise_cons.mp hpw
    by_cases h : t < cutoff
    · rw [trimLoop, if_pos h] at hx
      exact ih ps.tail ss.tail htl x hx
    · rw [trimLoop, if_neg h] at hx
      rcases List.mem_cons.mp hx with rfl | hx2
      · exact not_lt.mp h
      · exact le_trans (not_lt.mp h) (hts x hx2)

theorem update_history_inv {h : History} {ub : ℚ} (ts : ℚ) (p : Option ℚ)
    (s : Option ℤ) (now : ℚ) (hi : HistInv h ub) (hub : ub ≤ ts) :
    HistInv (update_history h ts p s now) ts ∧
      ∀ x ∈ (update_history h ts p s now).timestamps, now - 86400 ≤ x := by
  obtain ⟨hp, hs, hpw, hle⟩ := hi
  have hp2 : (h.ping_values ++ [p]).length = (h.timestamps ++ [ts]).length := by
    simp [hp]
  have hs2 : (h.signal_values ++ [s]).length =
      (h.timestamps ++ [ts]).length := by
    simp [hs]
  have hpw2 : (h.timestamps ++ [ts]).Pairwise (· ≤ ·) := by
    rw [List.pairwise_append]
    refine ⟨hpw, List.pairwise_singleton _ _, ?_⟩
    intro a ha b hb
    have hb2 : b = ts := by simpa using hb
    subst hb2
    exact le_trans (hle a ha) hub
  have hlen := trimLoop_lengths (now - 86400) (h.timestamps ++ [ts])
    (h.ping_values ++ [p]) (h.signal_values ++ [s]) hp2 hs2
  have hsub := trimLoop_sublist (now - 86400) (h.timestamps ++ [ts])
    (h.ping_values ++ [p]) (h.signal_values ++ [s])
  have hpwr := hpw2.sublist hsub
  have hub2 : ∀ x ∈ (trimLoop (now - 86400) (h.timestamps ++ [ts])
      (h.ping_values ++ [p]) (h.signal_values ++ [s])).1, x ≤ ts := by
    intro x hx
    rcases List.mem_append.mp (hsub.subset hx) with hx1 | hx2
    · exact le_trans (hle x hx1) hub
    · have : x = ts := by simpa using hx2
      exact this.le
  have hlow := trimLoop_lower (now - 86400) (h.timestamps ++ [ts])
    (h.ping_values ++ [p]) (h.signal_values ++ [s]) hpw2
  exact ⟨⟨hlen.1, hlen.2, hpwr, hub2⟩, hlow⟩

theorem runHistory_inv (evs : List AppendEv) :
    ∀ (h : History) (ub : ℚ), HistInv h ub →
      (evs.map AppendEv.ts).Pairwise (· ≤ ·) →
      (∀ e ∈ evs, ub ≤ e.ts) →
      HistInv (runHistory h evs) (lastTs ub evs) := by
  induction evs with
  | nil => intro h ub hi _ _; exact hi
  | cons e es ih =>
    intro h ub hi hpw hub
    have hstep := update_history_inv e.ts e.ping e.signal e.now hi
      (hub e (by simp))
    have hpw2 : (∀ a ∈ es, e.ts ≤ a.ts) ∧
        (es.map AppendEv.ts).Pairwise (· ≤ ·) := by simpa using hpw
    exact ih (update_history h e.ts e.ping e.signal e.now) e.ts hstep.1
      hpw2.2 hpw2.1

theorem lastTs_mem (evs : List AppendEv) :
    ∀ ub : ℚ, lastTs ub evs = ub ∨ lastTs ub evs ∈ evs.map AppendEv.ts := by
  induction evs with
  | nil => intro ub; exact Or.inl rfl
  | cons e es ih =>
    intro ub
    rcases ih e.ts with h | h
    · right
      rw [lastTs, h]
      simp
    · right
      rw [lastTs]
      simp only [List.map_cons, List.mem_cons]
      exact Or.inr h

/-- **C4.** For every sequence of history appends whose sample timestamps
arrive in non-decreasing order (insertion order, as produced by successive
`datetime.now()` calls), immediately after each append — here: after the
append of `e` following the arbitrary prefix `pre` — the three parallel
lists have equal length, the timestamps are non-decreasing, and every
retained timestamp is within 24 hours (86400 s) of the time of that
append. -/
theorem history_invariant (pre : List AppendEv) (e : AppendEv)
    (hsort : ((pre ++ [e]).map AppendEv.ts).Pairwise (· ≤ ·)) :
    HistInv (runHistory emptyHistory (pre ++ [e])) e.ts ∧
      ∀ x ∈ (runHistory emptyHistory (pre ++ [e])).timestamps,
        e.now - 86400 ≤ x := by
  have hlast : runHistory emptyHistory (pre ++ [e]) =
      update_history (runHistory emptyHistory pre)
        e.ts e.ping e.signal e.now := by
    simp [runHistory, List.foldl_append]
  have hcross : ∀ a ∈ pre.map AppendEv.ts, a ≤ e.ts := by
    have hap := (List.pairwise_append.mp
      (by simpa [List.map_append] using hsort)).2.2
    intro a ha
    exact hap a ha e.ts (by simp)
  have hpwpre : (pre.map AppendEv.ts).Pairwise (· ≤ ·) :=
    (List.pairwise_append.mp (by simpa [List.map_append] using hsort)).1
  have hempty : ∀ ub : ℚ, HistInv emptyHistory ub := by
    intro ub
    refine ⟨rfl, rfl, List.Pairwise.nil, ?_⟩
    intro t ht
    simp [emptyHistory] at ht
  cases pre with
  | nil =>
    have hstep := update_history_inv e.ts e.ping e.signal e.now
      (hempty e.ts) le_rfl
    rw [hlast]
    exact hstep
  | cons p0 ps =>
    have hfirst : ∀ e2 ∈ p0 :: ps, p0.ts ≤ e2.ts := by
      intro e2 he2
      rcases List.mem_cons.mp he2 with rfl | h2
      · exact le_rfl
      · exact (List.pairwise_cons.mp (by simpa using hpwpre)).1 e2.ts
          (List.mem_map_of_mem _ h2)
    have hinvpre := runHistory_inv (p0 :: ps) emptyHistory p0.ts
      (hempty p0.ts) hpwpre hfirst
    have hle : lastTs p0.ts (p0 :: ps) ≤ e.ts := by
      rcases lastTs_mem (p0 :: ps) p0.ts with hm | hm
      · rw [hm]
        exact hcross p0.ts (by simp)
      · exact hcross _ hm
    have hstep := update_history_inv e.ts e.ping e.signal e.now hinvpre hle
    rw [hlast]
    exact hstep

/-- Witness for **C4**: two appends, the second a full day later, so the
first entry is evicted; the invariant holds of the result. -/
theorem history_invariant_witness :
    HistInv (runHistory emptyHistory
        ([⟨0, some 10, none, 0⟩] ++ [⟨90000, none, some (-60), 90000⟩]))
        (AppendEv.mk 90000 none (some (-60)) 90000).ts ∧
      ∀ x ∈ (runHistory emptyHistory
          ([⟨0, some 10, none, 0⟩] ++
            [⟨90000, none, some (-60), 90000⟩])).timestamps,
        (AppendEv.mk 90000 none (some (-60)) 90000).now - 86400 ≤ x :=
  history_invariant [⟨0, some 10, none, 0⟩] ⟨90000, none, some (-60), 90000⟩
    (by
      simp only [List.cons_append, List.nil_append, List.map_cons,
        List.map_nil, List.pairwise_cons, List.mem_singleton,
        List.Pairwise.nil, List.not_mem_nil, forall_eq, and_true]
      constructor
      · norm_num
      · intro a ha
        simp at ha)

end NetDog
